import Mathlib

/-!
Shallow embedding of `clean_duplicates.py`, the Google Drive duplicate
cleaner, together with proofs about its duplicate-resolution logic.

Modelling conventions:

* A Drive file-metadata dictionary is `FileRecord`.  The script reads
  `file['name']` with an unguarded index (a missing key raises `KeyError`),
  so `name` is `Option String` and the functions that read it are
  `Option`-valued; `modifiedTime` is read as `x.get('modifiedTime', '')`,
  so it is `Option String` with an explicit default; `id` is read
  unguardedly but no claim probes its absence, so it stays a plain string.
  `mimeType`, `createdTime` and `size` are informational and unused by the
  resolver logic, so they are omitted.
* Python compares strings lexicographically by code point; Lean's `String`
  order is the lexicographic order on the underlying character list, so the
  timestamp key is taken as a `List Char`, which keeps every comparison
  kernel-computable.
* `files_list.sort(key=lambda x: x.get('modifiedTime', ''), reverse=True)`
  (line 134) is Python's stable sort run descending; it is modelled by
  `List.insertionSort` with the relation `recGe` ("at least as recent"),
  the stable descending insertion sort: equal keys keep their original
  relative order and the result is non-increasing in the key.
* A Python `dict` preserves key insertion order, so the grouping dict of
  `find_duplicates` (lines 85-95) is an association list
  `List (String × List FileRecord)` in first-seen key order; appending to a
  bucket models `duplicates[name].append(file)` and the dict comprehension
  on line 94 is a `filter` that keeps buckets of length > 1 in order.
* The deletion gateway (`files().delete(...).execute()`) is a function
  `String → Except String Unit`; a raised `HttpError` is the `error` case.
  `delete_file` (lines 97-105) catches it and returns a `Bool`, which the
  caller on line 148 discards.
* `cleanup_duplicates` (lines 107-160) is modelled by its observable
  behaviour: the sequence of gateway delete calls made (with their
  results) and the numbers printed in the final summary.  The printed
  summary holds the scanned count, the duplicate-name count and
  `total_to_delete`; in non-dry mode line 160 prints `total_to_delete`
  again as the number of files "successfully removed", and no
  success/failure tally is kept anywhere.
* `main` (lines 162-208) leaves the process with a plain `return` on every
  path (there is no `sys.exit` call), so the modelled exit status of each
  control-flow path is recorded by `mainExitCode`.
-/

namespace CleanDup

/-- One file-metadata record as fetched from the Drive listing API. -/
structure FileRecord where
  id : String
  name : Option String
  modifiedTime : Option String
  deriving DecidableEq, Repr

/-- The sort key `x.get('modifiedTime', '')` of line 134, as the character
list of the timestamp string (absent timestamp defaults to `""`). -/
def mtKey (f : FileRecord) : List Char := (f.modifiedTime.getD "").data

/-- `a` is at least as recent as `b` (its timestamp key is ≥).  Sorting by
this relation is the descending sort of line 134. -/
def recGe (a b : FileRecord) : Prop := mtKey b ≤ mtKey a

instance : DecidableRel recGe := fun a b => inferInstanceAs (Decidable (mtKey b ≤ mtKey a))

instance : IsTotal FileRecord recGe := ⟨fun a b => le_total (mtKey b) (mtKey a)⟩

instance : IsTrans FileRecord recGe := ⟨fun _ _ _ h1 h2 => le_trans h2 h1⟩

/-- `files_list.sort(key=lambda x: x.get('modifiedTime', ''), reverse=True)`
(line 134): stable descending sort by `mtKey`. -/
def sortDesc (l : List FileRecord) : List FileRecord := l.insertionSort recGe

/-- `file['name']` read with a default; meaningful only when the name is
present, which the `Option` plumbing guarantees wherever this is used. -/
def nameD (f : FileRecord) : String := f.name.getD ""

/-- Boolean test that a record's name is `n`. -/
def nameIs (n : String) (f : FileRecord) : Bool := decide (nameD f = n)

/-- Boolean test that a bucket is keyed by `n`. -/
def keyIs (n : String) (b : String × List FileRecord) : Bool := decide (b.1 = n)

/-- The keys of the grouping dict, in insertion order. -/
def keys (gs : List (String × List FileRecord)) : List String := gs.map Prod.fst

/-- `duplicates[name].append(file)` preceded by
`if name not in duplicates: duplicates[name] = []` (lines 89-91): append
`f` to the bucket keyed `n`, creating the bucket at the end (insertion
order) when the key is new. -/
def insertRecord (n : String) (f : FileRecord) :
    List (String × List FileRecord) → List (String × List FileRecord)
  | [] => [(n, [f])]
  | b :: rest => if b.1 = n then (b.1, b.2 ++ [f]) :: rest else b :: insertRecord n f rest

/-- One iteration of the grouping loop (lines 87-91): `file['name']` is an
unguarded access, so a record without a name aborts the whole call. -/
def groupStep (acc : List (String × List FileRecord)) (f : FileRecord) :
    Option (List (String × List FileRecord)) :=
  f.name.map (fun n => insertRecord n f acc)

/-- The grouping loop of `find_duplicates` (lines 85-91), before the
length > 1 filter. -/
def groupByName (files : List FileRecord) : Option (List (String × List FileRecord)) :=
  files.foldlM groupStep []

/-- The bucket-retention test of line 94: `len(files_list) > 1`. -/
def isDupGroup (b : String × List FileRecord) : Bool := decide (1 < b.2.length)

/-- `DriveDuplicateCleaner.find_duplicates` (lines 83-95): group by name,
then keep only names with more than one file. -/
def find_duplicates (files : List FileRecord) : Option (List (String × List FileRecord)) :=
  (groupByName files).map (fun gs => gs.filter isDupGroup)

/-- Total restatement of the grouping loop for inputs whose names are all
present (proved equivalent to `groupByName` under that hypothesis). -/
def groupByNameT (files : List FileRecord) : List (String × List FileRecord) :=
  files.foldl (fun acc f => insertRecord (nameD f) f acc) []

/-- The bucket stored under key `n` (empty if the key is absent). -/
def bucket (gs : List (String × List FileRecord)) (n : String) : List FileRecord :=
  ((gs.find? (keyIs n)).map Prod.snd).getD []

/-- `DriveDuplicateCleaner.delete_file` (lines 97-105): one gateway delete
call; an `HttpError` is caught and turned into `False`. -/
def delete_file (gw : String → Except String Unit) (fileId : String) : Bool :=
  match gw fileId with
  | Except.ok _ => true
  | Except.error _ => false

/-- Mutable bookkeeping of the deletion loop: the running
`total_to_delete` counter (line 143), the gateway delete calls made so far
(line 100, in call order) and each call's result as returned by
`delete_file` (discarded by the caller on line 148). -/
structure RunStats where
  total : Nat
  calls : List String
  results : List Bool
  deriving DecidableEq, Repr

/-- One iteration of the inner loop `for file in to_delete` (lines
142-148): the counter always increments; only in non-dry mode is the
gateway called. -/
def processFile (gw : String → Except String Unit) (dry_run : Bool)
    (acc : RunStats) (f : FileRecord) : RunStats :=
  if dry_run then ⟨acc.total + 1, acc.calls, acc.results⟩
  else ⟨acc.total + 1, acc.calls ++ [f.id], acc.results ++ [delete_file gw f.id]⟩

/-- One iteration of the outer loop over duplicate groups (lines 130-148):
sort the bucket descending by modified time, keep the head, run the inner
loop over the tail. -/
def processGroup (gw : String → Except String Unit) (dry_run : Bool)
    (acc : RunStats) (b : String × List FileRecord) : RunStats :=
  ((sortDesc b.2).drop 1).foldl (processFile gw dry_run) acc

/-- The records marked for deletion in one duplicate group:
`to_delete = files_list[1:]` after the in-place sort (lines 134-138). -/
def toDelete (b : String × List FileRecord) : List FileRecord := (sortDesc b.2).drop 1

/-- The full deletion plan: the ids passed to the gateway, groups in dict
order, records in sorted-tail order. -/
def planOf (dups : List (String × List FileRecord)) : List String :=
  dups.flatMap (fun b => (toDelete b).map (fun f => f.id))

/-- The observable outcome of one `cleanup_duplicates` run: the numbers
printed in the summary block (lines 150-160) and the trace of gateway
delete calls.  `removedReport` is the count printed by line 160
("Successfully removed N duplicate files"), absent in dry-run mode. -/
structure Summary where
  scanned : Nat
  dupNames : Nat
  filesToDelete : Nat
  removedReport : Option Nat
  deleteCalls : List String
  deleteResults : List Bool
  deriving DecidableEq, Repr

/-- `DriveDuplicateCleaner.cleanup_duplicates` (lines 107-160) applied to
an already-fetched file list (the fetch itself is the external gateway's
`list`).  `none` models the `KeyError` escaping from `find_duplicates`.
When no duplicates exist the code returns early (line 125) without calling
the gateway, which the zero-valued stats record faithfully. -/
def cleanup_duplicates (files : List FileRecord) (gw : String → Except String Unit)
    (dry_run : Bool) : Option Summary :=
  (find_duplicates files).map (fun dups =>
    let st := dups.foldl (processGroup gw dry_run) ⟨0, [], []⟩
    ⟨files.length, dups.length, st.total,
      if dry_run then none else some st.total, st.calls, st.results⟩)

/-- Predicate for the post-run file set: the record's id was not among the
gateway delete calls (the gateway deletes by `fileId`). -/
def notDeleted (plan : List String) (f : FileRecord) : Bool := decide (¬ f.id ∈ plan)

/-- Exit status of `main` (lines 162-208) on each modelled control-flow
path: authentication failure (line 181-183) prints and executes a plain
`return`, the cancelled confirmation prompt (lines 199-202) likewise, and
the normal path falls off the end of `main`; every path leaves the
interpreter with process status 0 because `sys.exit` is never called. -/
def mainExitCode (authOk : Bool) (deleteFlag : Bool) (confirmInput : String) : Nat :=
  if ¬ authOk then 0
  else if deleteFlag ∧ confirmInput ≠ "YES" then 0
  else 0

/-- Spec §8 example records: `{id:A, name:"x.pdf", modifiedTime:"2024-01-02"}`,
`{id:B, name:"x.pdf", modifiedTime:"2024-01-05"}`,
`{id:C, name:"y.pdf", modifiedTime:"2024-01-01"}`. -/
def exA : FileRecord := ⟨"A", some "x.pdf", some "2024-01-02"⟩

def exB : FileRecord := ⟨"B", some "x.pdf", some "2024-01-05"⟩

def exC : FileRecord := ⟨"C", some "y.pdf", some "2024-01-01"⟩

/-- Spec §8 tie example: two records named `z.pdf` with the same
modified time, fetched in order X then Y. -/
def exX : FileRecord := ⟨"X", some "z.pdf", some "2024-01-01"⟩

def exY : FileRecord := ⟨"Y", some "z.pdf", some "2024-01-01"⟩

/-- A four-copy group: the plan keeps `fr1` and deletes `B`, `C`, `D`. -/
def fr1 : FileRecord := ⟨"A", some "x.pdf", some "2024-01-04"⟩

def fr2 : FileRecord := ⟨"B", some "x.pdf", some "2024-01-03"⟩

def fr3 : FileRecord := ⟨"C", some "x.pdf", some "2024-01-02"⟩

def fr4 : FileRecord := ⟨"D", some "x.pdf", some "2024-01-01"⟩

/-- A record whose name is unique in its list (a singleton bucket). -/
def rSolo : FileRecord := ⟨"S", some "a.pdf", some "2024-01-01"⟩

/-- A record lacking the `name` key. -/
def rNoName : FileRecord := ⟨"N", none, some "2024-01-01"⟩

/-- A gateway that fails exactly on file id `C` (the second planned
deletion of `[fr1, fr2, fr3, fr4]`). -/
def gwFailC (fileId : String) : Except String Unit :=
  if fileId = "C" then Except.error "HttpError 403" else Except.ok ()

/-- A gateway that fails on every call. -/
def gwFailAll (_ : String) : Except String Unit := Except.error "HttpError 500"

theorem bucket_nil (n : String) : bucket [] n = [] := rfl

theorem bucket_cons (x : String × List FileRecord) (l : List (String × List FileRecord))
    (m : String) : bucket (x :: l) m = if x.1 = m then x.2 else bucket l m := by
  by_cases h : x.1 = m
  · rw [bucket, List.find?_cons_of_pos _ (by simp [keyIs, h]), if_pos h]
    rfl
  · rw [bucket, List.find?_cons_of_neg _ (by simp [keyIs, h]), if_neg h]
    rfl

theorem bucket_insertRecord (gs : List (String × List FileRecord)) (n m : String)
    (f : FileRecord) :
    bucket (insertRecord n f gs) m = bucket gs m ++ (if n = m then [f] else []) := by
  induction gs with
  | nil =>
    show bucket [(n, [f])] m = bucket [] m ++ _
    rw [bucket_cons, bucket_nil]
    by_cases h : n = m <;> simp [h]
  | cons b rest ih =>
    by_cases hb : b.1 = n
    · rw [insertRecord, if_pos hb, bucket_cons, bucket_cons]
      by_cases hm : b.1 = m
      · have hnm : n = m := by rw [← hb, hm]
        simp [hm, hnm]
      · have hnm : ¬ n = m := by rw [← hb]; exact hm
        simp [hm, hnm]
    · rw [insertRecord, if_neg hb, bucket_cons, bucket_cons, ih]
      by_cases hm : b.1 = m
      · have hnm : ¬ n = m := fun hc => hb (by rw [hm, hc])
        simp [hm, hnm]
      · simp [hm]

theorem bucket_foldl (files : List FileRecord) (acc : List (String × List FileRecord))
    (m : String) :
    bucket (files.foldl (fun a f => insertRecord (nameD f) f a) acc) m =
      bucket acc m ++ files.filter (nameIs m) := by
  induction files generalizing acc with
  | nil => simp
  | cons x xs ih =>
    rw [List.foldl_cons, ih, bucket_insertRecord]
    by_cases h : nameD x = m
    · simp [List.filter_cons, nameIs, h]
    · simp [List.filter_cons, nameIs, h]

theorem bucket_groupByNameT (files : List FileRecord) (m : String) :
    bucket (groupByNameT files) m = files.filter (nameIs m) := by
  rw [groupByNameT, bucket_foldl, bucket_nil, List.nil_append]

theorem keys_insertRecord (gs : List (String × List FileRecord)) (n : String)
    (f : FileRecord) :
    keys (insertRecord n f gs) = if n ∈ keys gs then keys gs else keys gs ++ [n] := by
  induction gs with
  | nil => simp [insertRecord, keys]
  | cons b rest ih =>
    by_cases hb : b.1 = n
    · rw [insertRecord, if_pos hb]
      have hn : n ∈ keys (b :: rest) := by
        rw [keys, List.map_cons, ← hb]
        exact List.mem_cons_self b.1 _
      rw [if_pos hn]
      rfl
    · rw [insertRecord, if_neg hb]
      have hcons : keys (b :: insertRecord n f rest) = b.1 :: keys (insertRecord n f rest) := rfl
      rw [hcons, ih]
      have hmem : (n ∈ keys (b :: rest)) ↔ n ∈ keys rest := by
        rw [keys, List.map_cons, List.mem_cons]
        constructor
        · rintro (hc | hc)
          · exact absurd hc.symm hb
          · exact hc
        · exact Or.inr
      by_cases hn : n ∈ keys rest
      · rw [if_pos hn, if_pos (hmem.mpr hn)]
        rfl
      · rw [if_neg hn, if_neg (fun hc => hn (hmem.mp hc))]
        rfl

theorem keys_nodup_insertRecord (gs : List (String × List FileRecord)) (n : String)
    (f : FileRecord) (h : (keys gs).Nodup) : (keys (insertRecord n f gs)).Nodup := by
  rw [keys_insertRecord]
  by_cases hn : n ∈ keys gs
  · rwa [if_pos hn]
  · rw [if_neg hn]
    exact (List.perm_append_singleton n (keys gs)).nodup_iff.mpr
      (List.nodup_cons.mpr ⟨hn, h⟩)

theorem keys_nodup_foldl (files : List FileRecord) :
    ∀ acc, (keys acc).Nodup →
      (keys (files.foldl (fun a f => insertRecord (nameD f) f a) acc)).Nodup := by
  induction files with
  | nil => intro acc h; simpa using h
  | cons x xs ih => intro acc h; exact ih _ (keys_nodup_insertRecord _ _ _ h)

theorem keys_nodup_groupByNameT (files : List FileRecord) :
    (keys (groupByNameT files)).Nodup :=
  keys_nodup_foldl files [] (by simp [keys])

theorem bucket_of_mem (gs : List (String × List FileRecord)) (h : (keys gs).Nodup)
    {n : String} {fs : List FileRecord} (hmem : (n, fs) ∈ gs) : bucket gs n = fs := by
  induction gs with
  | nil => simp at hmem
  | cons b rest ih =>
    have h' : (b.1 :: keys rest).Nodup := by
      rw [keys, List.map_cons] at h
      exact h
    obtain ⟨hb1, hrest⟩ := List.nodup_cons.mp h'
    rw [bucket_cons]
    rcases List.mem_cons.mp hmem with heq | hmem'
    · rw [← heq]
      simp
    · have hn : n ∈ keys rest := by
        rw [keys]
        exact List.mem_map.mpr ⟨(n, fs), hmem', rfl⟩
      have hne : ¬ b.1 = n := fun hc => hb1 (hc ▸ hn)
      rw [if_neg hne]
      exact ih hrest hmem'

theorem mem_of_bucket_ne_nil (gs : List (String × List FileRecord)) (n : String)
    (h : bucket gs n ≠ []) : (n, bucket gs n) ∈ gs := by
  rw [bucket] at h ⊢
  cases hf : gs.find? (keyIs n) with
  | none => rw [hf] at h; simp at h
  | some b =>
    have hb1 : b.1 = n := by
      have := List.find?_some hf
      simpa [keyIs] using this
    have hmemb : b ∈ gs := List.mem_of_find?_eq_some hf
    have hgoal : ((n, ((Option.map Prod.snd (some b)).getD [])) : String × List FileRecord) = b := by
      rw [← hb1]
      rfl
    rw [hgoal]
    exact hmemb

theorem groupByName_eq_total (files : List FileRecord) :
    ∀ acc, (∀ f ∈ files, f.name.isSome) →
      files.foldlM groupStep acc =
        some (files.foldl (fun a f => insertRecord (nameD f) f a) acc) := by
  induction files with
  | nil => intro acc _; rfl
  | cons x xs ih =>
    intro acc h
    obtain ⟨n, hn⟩ := Option.isSome_iff_exists.mp (h x (List.mem_cons_self x xs))
    rw [List.foldlM_cons]
    have hstep : groupStep acc x = some (insertRecord (nameD x) x acc) := by
      rw [groupStep, hn]
      simp [nameD, hn]
    rw [hstep]
    simpa using ih (insertRecord (nameD x) x acc) (fun f hf => h f (List.mem_cons_of_mem x hf))

theorem foldlM_groupStep_isSome (files : List FileRecord) :
    ∀ acc, (files.foldlM groupStep acc).isSome → ∀ f ∈ files, f.name.isSome := by
  induction files with
  | nil => intro acc _ f hf; simp at hf
  | cons x xs ih =>
    intro acc hs f hf
    rw [List.foldlM_cons] at hs
    cases hn : x.name with
    | none =>
      rw [show groupStep acc x = none by rw [groupStep, hn]; rfl] at hs
      simp at hs
    | some n =>
      rw [show groupStep acc x = some (insertRecord n x acc) by rw [groupStep, hn]; rfl] at hs
      rcases List.mem_cons.mp hf with rfl | hf'
      · simp [hn]
      · exact ih _ (by simpa using hs) f hf'

theorem groupByName_isSome_iff (files : List FileRecord) :
    (groupByName files).isSome ↔ ∀ f ∈ files, f.name.isSome := by
  constructor
  · exact foldlM_groupStep_isSome files []
  · intro h
    rw [groupByName, groupByName_eq_total files [] h]
    rfl

/-- Claim C1: for every duplicate group of size at least two, the plan of
`cleanup_duplicates` (sort descending, keep the head, delete the tail,
lines 133-138) designates exactly one keep record, the keep record
together with the delete records is a permutation of the group (union with
no overlap), the delete sequence has the group's size minus one, and the
keep record's `modifiedTime` key (absent treated as the minimal value, the
empty string) is lexicographically ≥ every delete record's key. -/
theorem c1_plan_partition (g : List FileRecord) (h : 2 ≤ g.length) :
    ∃ keep dels, sortDesc g = keep :: dels ∧ (keep :: dels).Perm g ∧
      dels.length = g.length - 1 ∧ ∀ d ∈ dels, mtKey d ≤ mtKey keep := by
  have hperm : (sortDesc g).Perm g := List.perm_insertionSort recGe g
  have hsorted : List.Sorted recGe (sortDesc g) := List.sorted_insertionSort recGe g
  have hlen : (sortDesc g).length = g.length := hperm.length_eq
  cases hsd : sortDesc g with
  | nil => rw [hsd] at hlen; simp at hlen; omega
  | cons keep dels =>
    rw [hsd] at hperm hsorted hlen
    refine ⟨keep, dels, rfl, hperm, by simp at hlen; omega, ?_⟩
    intro d hd
    exact List.rel_of_sorted_cons hsorted d hd

/-- Witness for C1 at the spec §8 example group `[A, B]` (both named
`x.pdf`, B more recent): the hypothesis `2 ≤ length` holds and the plan
keeps B, deleting A. -/
theorem c1_plan_partition_witness :
    2 ≤ [exA, exB].length ∧
      ∃ keep dels, sortDesc [exA, exB] = keep :: dels ∧ (keep :: dels).Perm [exA, exB] ∧
        dels.length = [exA, exB].length - 1 ∧ ∀ d ∈ dels, mtKey d ≤ mtKey keep :=
  ⟨by decide, c1_plan_partition [exA, exB] (by decide)⟩

/-- Claim C4: the descending sort picking the keep record is stable with
respect to fetch order: for every nonempty group, the head of the sorted
list is a group member whose key is maximal and such that every member
fetched before it has a strictly smaller key — so when two or more records
share the greatest `modifiedTime`, the first-fetched one is kept. -/
theorem c4_stable_tie_break (g : List FileRecord) (h : g ≠ []) :
    ∃ pre keep post, g = pre ++ keep :: post ∧
      (sortDesc g).head? = some keep ∧
      (∀ f ∈ g, mtKey f ≤ mtKey keep) ∧
      ∀ f ∈ pre, mtKey f < mtKey keep := by
  induction g with
  | nil => exact absurd rfl h
  | cons x xs ih =>
    cases hxs : xs with
    | nil =>
      refine ⟨[], x, [], rfl, rfl, ?_, by simp⟩
      intro f hf
      rw [List.mem_singleton] at hf
      subst hf
      exact le_refl _
    | cons y ys =>
      subst hxs
      obtain ⟨pre, keep, post, hdecomp, hhead, hmax, hpre⟩ := ih (by simp)
      obtain ⟨rest, hrest⟩ : ∃ rest, sortDesc (y :: ys) = keep :: rest := by
        cases hsd : sortDesc (y :: ys) with
        | nil => rw [hsd] at hhead; simp at hhead
        | cons a as =>
          rw [hsd] at hhead
          simp only [List.head?_cons, Option.some_inj] at hhead
          exact ⟨as, by rw [hhead]⟩
      have hunfold : sortDesc (x :: y :: ys) =
          List.orderedInsert recGe x (sortDesc (y :: ys)) := rfl
      by_cases hc : recGe x keep
      · refine ⟨[], x, y :: ys, rfl, ?_, ?_, by simp⟩
        · rw [hunfold, hrest]
          simp [List.orderedInsert, hc]
        · intro f hf
          rcases List.mem_cons.mp hf with rfl | hf
          · exact le_refl _
          · exact le_trans (hmax f hf) hc
      · refine ⟨x :: pre, keep, post, by rw [hdecomp]; rfl, ?_, ?_, ?_⟩
        · rw [hunfold, hrest]
          simp [List.orderedInsert, hc]
        · intro f hf
          rcases List.mem_cons.mp hf with rfl | hf
          · exact le_of_lt (not_le.mp hc)
          · exact hmax f hf
        · intro f hf
          rcases List.mem_cons.mp hf with rfl | hf
          · exact not_le.mp hc
          · exact hpre f hf

/-- Witness for C4 at the spec §8 tie example: records X and Y both named
`z.pdf` with identical `modifiedTime` `2024-01-01`, fetched in order
`[X, Y]`; the keep record (head of the sorted list) is X. -/
theorem c4_stable_tie_break_witness :
    ([exX, exY] ≠ [] ∧
      ∃ pre keep post, [exX, exY] = pre ++ keep :: post ∧
        (sortDesc [exX, exY]).head? = some keep ∧
        (∀ f ∈ [exX, exY], mtKey f ≤ mtKey keep) ∧
        ∀ f ∈ pre, mtKey f < mtKey keep) ∧
      (sortDesc [exX, exY]).head? = some exX :=
  ⟨⟨by decide, c4_stable_tie_break [exX, exY] (by decide)⟩, by decide⟩

/-- Counterexample to claim C5 as stated: `find_duplicates` does not put
every input record in a bucket, because line 94 drops singleton buckets.
For the one-record input `[rSolo]` the function returns the empty mapping,
so the record appears in no output bucket at all. -/
theorem c5_counterexample :
    ¬ ∀ gs, find_duplicates [rSolo] = some gs → ∃ b ∈ gs, rSolo ∈ b.2 := by
  intro h
  obtain ⟨b, hb, _⟩ := h [] (by decide)
  simp at hb

/-- Claim C5 as amended: it is the grouping loop of `find_duplicates`
(lines 85-91, before the length > 1 filter of line 94) that partitions the
input exactly: when every record carries a name, the loop succeeds, each
bucket equals the sub-sequence of input records bearing its key
(first-seen relative order preserved), every input record lies in the
bucket keyed by its own name and in no other bucket (keys are distinct and
buckets only hold records matching their key), and `find_duplicates`
returns exactly these buckets restricted to those with more than one
member. -/
theorem c5_grouping_partitions (files : List FileRecord)
    (h : ∀ f ∈ files, f.name.isSome) :
    ∃ gs, groupByName files = some gs ∧
      (∀ n fs, (n, fs) ∈ gs → fs = files.filter (nameIs n)) ∧
      (∀ f ∈ files, ∃ fs, (nameD f, fs) ∈ gs ∧ f ∈ fs) ∧
      (keys gs).Nodup ∧
      (∀ n fs, (n, fs) ∈ gs → ∀ f ∈ fs, nameD f = n) ∧
      find_duplicates files = some (gs.filter isDupGroup) := by
  refine ⟨groupByNameT files, ?_, ?_, ?_, keys_nodup_groupByNameT files, ?_, ?_⟩
  · rw [groupByName, groupByName_eq_total files [] h]
    rfl
  · intro n fs hmem
    rw [← bucket_of_mem _ (keys_nodup_groupByNameT files) hmem, bucket_groupByNameT]
  · intro f hf
    have hbf : f ∈ bucket (groupByNameT files) (nameD f) := by
      rw [bucket_groupByNameT]
      exact List.mem_filter.mpr ⟨hf, by simp [nameIs]⟩
    have hne : bucket (groupByNameT files) (nameD f) ≠ [] := by
      intro hc
      rw [hc] at hbf
      simp at hbf
    exact ⟨bucket (groupByNameT files) (nameD f), mem_of_bucket_ne_nil _ _ hne, hbf⟩
  · intro n fs hmem f hf
    rw [← bucket_of_mem _ (keys_nodup_groupByNameT files) hmem, bucket_groupByNameT] at hf
    exact of_decide_eq_true (List.mem_filter.mp hf).2
  · rw [find_duplicates, groupByName, groupByName_eq_total files [] h]
    rfl

/-- Witness for C5 (amended) at the spec §8 example input `[A, B, C]`. -/
theorem c5_grouping_partitions_witness :
    (∀ f ∈ [exA, exB, exC], f.name.isSome) ∧
      ∃ gs, groupByName [exA, exB, exC] = some gs ∧
        (∀ n fs, (n, fs) ∈ gs → fs = [exA, exB, exC].filter (nameIs n)) ∧
        (∀ f ∈ [exA, exB, exC], ∃ fs, (nameD f, fs) ∈ gs ∧ f ∈ fs) ∧
        (keys gs).Nodup ∧
        (∀ n fs, (n, fs) ∈ gs → ∀ f ∈ fs, nameD f = n) ∧
        find_duplicates [exA, exB, exC] = some (gs.filter isDupGroup) :=
  ⟨by decide, c5_grouping_partitions [exA, exB, exC] (by decide)⟩

/-- Claim C9: `find_duplicates` retains only buckets with more than one
member, and the retained buckets are exactly the names borne by at least
two input records, each bucket being the in-order sub-sequence of input
records with that name.  The embedding is a pure function of the input
list, which reflects that the Python code only builds new containers
(lines 85-94) and never mutates its `files` argument. -/
theorem c9_filter_retains_multi (files : List FileRecord)
    (h : ∀ f ∈ files, f.name.isSome) :
    ∃ gs, find_duplicates files = some gs ∧
      (∀ b ∈ gs, 1 < b.2.length) ∧
      (∀ n fs, (n, fs) ∈ gs →
        fs = files.filter (nameIs n) ∧ 2 ≤ (files.filter (nameIs n)).length) ∧
      ∀ n, 2 ≤ (files.filter (nameIs n)).length → ∃ fs, (n, fs) ∈ gs := by
  refine ⟨(groupByNameT files).filter isDupGroup, ?_, ?_, ?_, ?_⟩
  · rw [find_duplicates, groupByName, groupByName_eq_total files [] h]
    rfl
  · intro b hb
    have hd := (List.mem_filter.mp hb).2
    simpa [isDupGroup] using hd
  · intro n fs hmem
    obtain ⟨hmem', hdup⟩ := List.mem_filter.mp hmem
    have heq : fs = files.filter (nameIs n) := by
      rw [← bucket_of_mem _ (keys_nodup_groupByNameT files) hmem', bucket_groupByNameT]
    refine ⟨heq, ?_⟩
    have hlen : 1 < fs.length := by simpa [isDupGroup] using hdup
    rw [heq] at hlen
    omega
  · intro n hlen
    have hne : bucket (groupByNameT files) n ≠ [] := by
      rw [bucket_groupByNameT]
      intro hc
      rw [hc] at hlen
      simp at hlen
    refine ⟨bucket (groupByNameT files) n,
      List.mem_filter.mpr ⟨mem_of_bucket_ne_nil _ n hne, ?_⟩⟩
    have : 1 < (bucket (groupByNameT files) n).length := by
      rw [bucket_groupByNameT]
      omega
    simpa [isDupGroup] using this

/-- Witness for C9 at the spec §8 example input `[A, B, C]`. -/
theorem c9_filter_retains_multi_witness :
    (∀ f ∈ [exA, exB, exC], f.name.isSome) ∧
      ∃ gs, find_duplicates [exA, exB, exC] = some gs ∧
        (∀ b ∈ gs, 1 < b.2.length) ∧
        (∀ n fs, (n, fs) ∈ gs →
          fs = [exA, exB, exC].filter (nameIs n) ∧
            2 ≤ ([exA, exB, exC].filter (nameIs n)).length) ∧
        ∀ n, 2 ≤ ([exA, exB, exC].filter (nameIs n)).length → ∃ fs, (n, fs) ∈ gs :=
  ⟨by decide, c9_filter_retains_multi [exA, exB, exC] (by decide)⟩

/-- Claim C10: `find_duplicates` completes exactly when every input record
carries a `name` key; a record lacking it makes the unguarded access
`file['name']` on line 88 raise (`none` in the embedding). -/
theorem c10_name_field_required (files : List FileRecord) :
    (find_duplicates files).isSome ↔ ∀ f ∈ files, f.name.isSome := by
  rw [find_duplicates, Option.isSome_map']
  exact groupByName_isSome_iff files

/-- Concrete instance of the missing-name failure: one nameless record in
the input makes `find_duplicates` fail even when other records are fine. -/
theorem find_duplicates_fails_on_missing_name :
    find_duplicates [exA, rNoName, exB] = none := rfl

theorem find_duplicates_eq_total (files : List FileRecord)
    (h : ∀ f ∈ files, f.name.isSome) :
    find_duplicates files = some ((groupByNameT files).filter isDupGroup) := by
  rw [find_duplicates, groupByName, groupByName_eq_total files [] h]
  rfl

theorem planOf_cons (b : String × List FileRecord) (rest : List (String × List FileRecord)) :
    planOf (b :: rest) = (toDelete b).map (fun f => f.id) ++ planOf rest := by
  simp [planOf]

theorem foldl_processFile_live (gw : String → Except String Unit) (l : List FileRecord) :
    ∀ acc : RunStats, l.foldl (processFile gw false) acc =
      ⟨acc.total + l.length, acc.calls ++ l.map (fun f => f.id),
        acc.results ++ l.map (fun f => delete_file gw f.id)⟩ := by
  induction l with
  | nil => intro acc; simp
  | cons x xs ih =>
    intro acc
    rw [List.foldl_cons, ih]
    simp [processFile, List.append_assoc]
    omega

theorem foldl_processFile_dry (gw : String → Except String Unit) (l : List FileRecord) :
    ∀ acc : RunStats, l.foldl (processFile gw true) acc =
      ⟨acc.total + l.length, acc.calls, acc.results⟩ := by
  induction l with
  | nil => intro acc; simp
  | cons x xs ih =>
    intro acc
    rw [List.foldl_cons, ih]
    simp [processFile]
    omega

theorem foldl_processGroup_live (gw : String → Except String Unit)
    (dups : List (String × List FileRecord)) :
    ∀ acc : RunStats, dups.foldl (processGroup gw false) acc =
      ⟨acc.total + (planOf dups).length, acc.calls ++ planOf dups,
        acc.results ++ (planOf dups).map (delete_file gw)⟩ := by
  induction dups with
  | nil => intro acc; simp [planOf]
  | cons b rest ih =>
    intro acc
    rw [List.foldl_cons]
    have hb : processGroup gw false acc b =
        ⟨acc.total + (toDelete b).length, acc.calls ++ (toDelete b).map (fun f => f.id),
          acc.results ++ (toDelete b).map (fun f => delete_file gw f.id)⟩ := by
      rw [processGroup, foldl_processFile_live]
      rfl
    rw [hb, ih, planOf_cons]
    simp [List.append_assoc, List.map_append, List.map_map, Function.comp, delete_file]
    omega

theorem foldl_processGroup_dry (gw : String → Except String Unit)
    (dups : List (String × List FileRecord)) :
    ∀ acc : RunStats, dups.foldl (processGroup gw true) acc =
      ⟨acc.total + (planOf dups).length, acc.calls, acc.results⟩ := by
  induction dups with
  | nil => intro acc; simp [planOf]
  | cons b rest ih =>
    intro acc
    rw [List.foldl_cons]
    have hb : processGroup gw true acc b =
        ⟨acc.total + (toDelete b).length, acc.calls, acc.results⟩ := by
      rw [processGroup, foldl_processFile_dry]
      rfl
    rw [hb, ih, planOf_cons]
    simp
    omega

theorem cleanup_duplicates_live (files : List FileRecord) (gw : String → Except String Unit)
    (dups : List (String × List FileRecord)) (hf : find_duplicates files = some dups) :
    cleanup_duplicates files gw false =
      some ⟨files.length, dups.length, (planOf dups).length, some (planOf dups).length,
        planOf dups, (planOf dups).map (delete_file gw)⟩ := by
  rw [cleanup_duplicates, hf, Option.map_some', foldl_processGroup_live]
  simp

theorem cleanup_duplicates_dry (files : List FileRecord) (gw : String → Except String Unit)
    (dups : List (String × List FileRecord)) (hf : find_duplicates files = some dups) :
    cleanup_duplicates files gw true =
      some ⟨files.length, dups.length, (planOf dups).length, none, [], []⟩ := by
  rw [cleanup_duplicates, hf, Option.map_some', foldl_processGroup_dry]
  simp

theorem count_true_add_count_false (l : List Bool) :
    l.count true + l.count false = l.length := by
  induction l with
  | nil => rfl
  | cons b bs ih => cases b <;> simp [List.count_cons] <;> omega

/-- Claim C3: with `dry_run` true, the gateway delete operation is never
invoked (the loop of lines 142-148 only prints in the dry branch, line
145); no mutating call is made for any input file list that yields a run. -/
theorem c3_dry_run_never_deletes (files : List FileRecord)
    (gw : String → Except String Unit) (s : Summary)
    (h : cleanup_duplicates files gw true = some s) :
    s.deleteCalls = [] ∧ s.deleteResults = [] := by
  cases hf : find_duplicates files with
  | none => rw [cleanup_duplicates, hf] at h; simp at h
  | some dups =>
    rw [cleanup_duplicates_dry files gw dups hf] at h
    have he := Option.some.inj h
    subst he
    exact ⟨rfl, rfl⟩

/-- Witness for C3: a dry run over the spec §8 example input, against a
gateway that would fail every call, makes no delete call at all. -/
theorem c3_dry_run_never_deletes_witness :
    cleanup_duplicates [exA, exB, exC] gwFailAll true = some ⟨3, 1, 1, none, [], []⟩ ∧
      Summary.deleteCalls ⟨3, 1, 1, none, [], []⟩ = [] ∧
        Summary.deleteResults ⟨3, 1, 1, none, [], []⟩ = [] :=
  ⟨by decide,
    c3_dry_run_never_deletes [exA, exB, exC] gwFailAll ⟨3, 1, 1, none, [], []⟩ (by decide)⟩

/-- Claim C7: a gateway deletion failure is non-fatal and never retried:
for every input and every gateway behaviour (in particular one that fails
on any record), the non-dry run issues exactly the full planned delete
sequence, in order, one call per planned record — `delete_file` catches
the error (lines 103-105) and the loop of lines 142-148 continues
unconditionally, and no id is ever re-attempted. -/
theorem c7_failure_non_fatal (files : List FileRecord) (gw : String → Except String Unit)
    (h : ∀ f ∈ files, f.name.isSome) :
    ∃ dups s, find_duplicates files = some dups ∧
      cleanup_duplicates files gw false = some s ∧
      s.deleteCalls = planOf dups ∧
      s.deleteResults = (planOf dups).map (delete_file gw) :=
  ⟨(groupByNameT files).filter isDupGroup, _, find_duplicates_eq_total files h,
    cleanup_duplicates_live files gw _ (find_duplicates_eq_total files h), rfl, rfl⟩

/-- Witness for C7 at the four-copy group with the gateway failing on the
second planned deletion: all three planned calls are still made in order. -/
theorem c7_failure_non_fatal_witness :
    (∀ f ∈ [fr1, fr2, fr3, fr4], f.name.isSome) ∧
      ∃ dups s, find_duplicates [fr1, fr2, fr3, fr4] = some dups ∧
        cleanup_duplicates [fr1, fr2, fr3, fr4] gwFailC false = some s ∧
        s.deleteCalls = planOf dups ∧
        s.deleteResults = (planOf dups).map (delete_file gwFailC) :=
  ⟨by decide, c7_failure_non_fatal [fr1, fr2, fr3, fr4] gwFailC (by decide)⟩

/-- Counterexample to claim C2 as stated: executing the 3-deletion plan of
`[fr1, fr2, fr3, fr4]` with the gateway failing on the 2nd deletion, the
gateway records 2 successes and 1 failure, but the summary does not report
those numbers: `delete_file`'s boolean result is discarded on line 148 and
line 160 reports all 3 planned deletions as "successfully removed". -/
theorem c2_counterexample :
    ∃ s, cleanup_duplicates [fr1, fr2, fr3, fr4] gwFailC false = some s ∧
      s.deleteResults.count true = 2 ∧
      s.deleteResults.count false = 1 ∧
      s.removedReport = some 3 ∧
      ¬ s.removedReport = some (s.deleteResults.count true) :=
  ⟨⟨4, 1, 3, some 3, ["B", "C", "D"], [true, false, true]⟩,
    by decide, by decide, by decide, by decide, by decide⟩

/-- Claim C2 as amended: with `dryRun` false every planned deletion is
attempted exactly once (successes plus failures equal the planned total,
so no attempt is dropped from the run itself), but the final summary
reports only the planned total — line 160 prints `total_to_delete` as the
removed count whatever the per-record outcomes were, and no separate
success/failure tally is kept: the boolean returned by `delete_file` is
discarded on line 148. -/
theorem c2_summary_reports_plan_total (files : List FileRecord)
    (gw : String → Except String Unit) (h : ∀ f ∈ files, f.name.isSome) :
    ∃ dups s, find_duplicates files = some dups ∧
      cleanup_duplicates files gw false = some s ∧
      s.filesToDelete = (planOf dups).length ∧
      s.removedReport = some s.filesToDelete ∧
      s.deleteResults.count true + s.deleteResults.count false = s.filesToDelete := by
  refine ⟨(groupByNameT files).filter isDupGroup, _, find_duplicates_eq_total files h,
    cleanup_duplicates_live files gw _ (find_duplicates_eq_total files h), rfl, rfl, ?_⟩
  rw [count_true_add_count_false]
  simp

/-- Witness for C2 (amended) at the 3-deletion example with the failing
gateway. -/
theorem c2_summary_reports_plan_total_witness :
    (∀ f ∈ [fr1, fr2, fr3, fr4], f.name.isSome) ∧
      ∃ dups s, find_duplicates [fr1, fr2, fr3, fr4] = some dups ∧
        cleanup_duplicates [fr1, fr2, fr3, fr4] gwFailC false = some s ∧
        s.filesToDelete = (planOf dups).length ∧
        s.removedReport = some s.filesToDelete ∧
        s.deleteResults.count true + s.deleteResults.count false = s.filesToDelete :=
  ⟨by decide, c2_summary_reports_plan_total [fr1, fr2, fr3, fr4] gwFailC (by decide)⟩

theorem filtered_name_length_le_one (files : List FileRecord) (n : String) :
    ((files.filter (notDeleted (planOf ((groupByNameT files).filter isDupGroup)))).filter
      (nameIs n)).length ≤ 1 := by
  set D := planOf ((groupByNameT files).filter isDupGroup) with hD
  have hswap : (files.filter (notDeleted D)).filter (nameIs n)
      = (files.filter (nameIs n)).filter (notDeleted D) := by
    rw [List.filter_filter, List.filter_filter]
    exact List.filter_congr (fun a _ => by rw [Bool.and_comm])
  rw [hswap]
  set G := files.filter (nameIs n) with hG
  by_cases hlen : G.length ≤ 1
  · exact le_trans (List.length_filter_le _ _) hlen
  · push_neg at hlen
    have hGne : G ≠ [] := by
      intro hc
      rw [hc] at hlen
      simp at hlen
    have hbG : bucket (groupByNameT files) n = G := by
      rw [bucket_groupByNameT, hG]
    have hmem : (n, G) ∈ (groupByNameT files).filter isDupGroup := by
      refine List.mem_filter.mpr ⟨?_, ?_⟩
      · have hm := mem_of_bucket_ne_nil (groupByNameT files) n (by rw [hbG]; exact hGne)
        rwa [hbG] at hm
      · simpa [isDupGroup] using hlen
    obtain ⟨k, ds, hkds⟩ : ∃ k ds, sortDesc G = k :: ds := by
      have hne : sortDesc G ≠ [] := by
        intro hc
        have hl : (sortDesc G).length = G.length :=
          (List.perm_insertionSort recGe G).length_eq
        rw [hc] at hl
        simp at hl
        omega
      exact List.exists_cons_of_ne_nil hne
    have hdel : ∀ d ∈ ds, d.id ∈ D := by
      intro d hd
      rw [hD, planOf]
      refine List.mem_flatMap.mpr ⟨(n, G), hmem, ?_⟩
      refine List.mem_map.mpr ⟨d, ?_, rfl⟩
      rw [toDelete, hkds]
      simpa using hd
    have hperm : (sortDesc G).Perm G := List.perm_insertionSort recGe G
    have hle : (G.filter (notDeleted D)).length = ((k :: ds).filter (notDeleted D)).length := by
      rw [← hkds]
      exact ((hperm.filter (notDeleted D)).length_eq).symm
    rw [hle]
    have hds : ds.filter (notDeleted D) = [] := by
      rw [List.filter_eq_nil_iff]
      intro d hd
      simpa [notDeleted] using hdel d hd
    cases hnk : notDeleted D k <;> simp [List.filter_cons, hnk, hds]

/-- Claim C6: the resolver is idempotent.  After a first non-dry run over
any file list (names present), removing from the list exactly the records
whose ids the gateway was asked to delete leaves a list on which
`find_duplicates` finds no duplicates at all: every name now has at most
one remaining record.  This holds for every gateway behaviour; the
post-run set of the external store coincides with the filtered list
whenever the gateway honoured the delete calls. -/
theorem c6_idempotent (files : List FileRecord) (gw : String → Except String Unit)
    (h : ∀ f ∈ files, f.name.isSome) (s : Summary)
    (hs : cleanup_duplicates files gw false = some s) :
    find_duplicates (files.filter (notDeleted s.deleteCalls)) = some [] := by
  rw [cleanup_duplicates_live files gw _ (find_duplicates_eq_total files h)] at hs
  have he := Option.some.inj hs
  subst he
  have h2 : ∀ f ∈ files.filter
      (notDeleted (planOf ((groupByNameT files).filter isDupGroup))), f.name.isSome :=
    fun f hf => h f (List.mem_filter.mp hf).1
  rw [find_duplicates_eq_total _ h2]
  refine congrArg some ?_
  rw [List.filter_eq_nil_iff]
  rintro ⟨n, fs⟩ hb
  have hfs : fs = (files.filter
      (notDeleted (planOf ((groupByNameT files).filter isDupGroup)))).filter (nameIs n) := by
    rw [← bucket_of_mem _ (keys_nodup_groupByNameT _) hb, bucket_groupByNameT]
  have hlen := filtered_name_length_le_one files n
  rw [← hfs] at hlen
  simp [isDupGroup]
  omega

/-- Witness for C6 at the four-copy group: after the run that plans the
deletion of ids B, C and D, filtering them out leaves only `fr1`, and a
second `find_duplicates` pass returns the empty duplicate set. -/
theorem c6_idempotent_witness :
    (∀ f ∈ [fr1, fr2, fr3, fr4], f.name.isSome) ∧
      cleanup_duplicates [fr1, fr2, fr3, fr4] gwFailC false =
        some ⟨4, 1, 3, some 3, ["B", "C", "D"], [true, false, true]⟩ ∧
      find_duplicates ([fr1, fr2, fr3, fr4].filter
        (notDeleted (Summary.deleteCalls
          ⟨4, 1, 3, some 3, ["B", "C", "D"], [true, false, true]⟩))) = some [] :=
  ⟨by decide, by decide,
    c6_idempotent [fr1, fr2, fr3, fr4] gwFailC (by decide) _ (by decide)⟩

/-- Counterexample to claim C8 as stated: on authentication failure `main`
prints "Authentication failed. Exiting." and executes a plain `return`
(lines 181-183) — there is no `sys.exit` call — so the process exits with
status 0, not a non-zero status. -/
theorem c8_counterexample : mainExitCode false false "" = 0 := rfl

/-- Claim C8 as amended: the modelled exit status is 0 on every
control-flow path of `main` — authentication failure, cancelled
confirmation, and completed runs (with or without individual deletion
failures) alike — because `main` always leaves by a plain `return` or by
falling off its end. -/
theorem c8_exit_always_zero (authOk deleteFlag : Bool) (confirmInput : String) :
    mainExitCode authOk deleteFlag confirmInput = 0 := by
  rw [mainExitCode]
  split
  · rfl
  · split <;> rfl

end CleanDup
